import Mathlib

/-!
Verification of the chat-driven structured-edit protocol of the chat-form
repository.  The development shallowly embeds the relevant Python functions:

* `apply_doc_edits` from `panel_chat.py` (tagged-block document edits),
* `apply_edits`, `parse_json`, `handle_json_payload` and the message handler
  from `panel_chat_final.py` (structured JSON edits on the field store),
* `parse_json` from `panel_chat_html.py` (the lenient variant whose fallback
  `json.loads` call sits outside the `try` block).

Text is modelled as `List Char`.  Python string primitives (`strip`,
`replace`, regular-expression scans used by the source) are embedded as
executable Lean functions.  Python exceptions are modelled explicitly:
procedures that can raise return an `Except`/`Option PyErr` result.
-/

set_option autoImplicit false

namespace ChatForm

/-- Txt abbreviates the character-list representation of Python strings. -/
abbrev Txt := List Char

/-- S converts a Lean string literal to its character list. -/
def S (s : String) : Txt := s.data

/-- isSp recognises the ASCII whitespace characters stripped by Python
`str.strip()` (space, tab, newline, carriage return, vertical tab, form feed). -/
def isSp (c : Char) : Bool :=
  c = ' ' || c = '\t' || c = '\n' || c = '\r' || c = '\x0b' || c = '\x0c'

/-- trimL drops leading whitespace, as Python `str.lstrip()`. -/
def trimL : Txt → Txt
  | [] => []
  | c :: rest => if isSp c then trimL rest else c :: rest

/-- trimR drops trailing whitespace, as Python `str.rstrip()`. -/
def trimR : Txt → Txt
  | [] => []
  | c :: rest =>
    match trimR rest with
    | [] => if isSp c then [] else [c]
    | d :: r => c :: d :: r

/-- pyStrip models Python `str.strip()`: both ends trimmed. -/
def pyStrip (s : Txt) : Txt := trimR (trimL s)

/-- isPre decides whether the first list is a (case-sensitive) leading
segment of the second. -/
def isPre : Txt → Txt → Bool
  | [], _ => true
  | _ :: _, [] => false
  | a :: as, b :: bs => a = b && isPre as bs

/-- lowerTxt lowercases every character, used to model `re.IGNORECASE` on
the ASCII tag alphabet. -/
def lowerTxt (s : Txt) : Txt := s.map Char.toLower

/-- ciPre decides a case-insensitive leading-segment test. -/
def ciPre (needle hay : Txt) : Bool := isPre (lowerTxt needle) (lowerTxt hay)

/-- splitFirst finds the first (case-sensitive) occurrence of `needle` and
returns the text before it and the text after it, scanning left to right as
Python `str.find` does. -/
def splitFirst (needle : Txt) : Txt → Option (Txt × Txt)
  | [] => if isPre needle [] then some ([], []) else none
  | c :: rest =>
    if isPre needle (c :: rest) then some ([], (c :: rest).drop needle.length)
    else (splitFirst needle rest).map (fun p => (c :: p.1, p.2))

/-- splitCI is `splitFirst` with case-insensitive matching, modelling a
`re.IGNORECASE` literal search. -/
def splitCI (needle : Txt) : Txt → Option (Txt × Txt)
  | [] => if ciPre needle [] then some ([], []) else none
  | c :: rest =>
    if ciPre needle (c :: rest) then some ([], (c :: rest).drop needle.length)
    else (splitCI needle rest).map (fun p => (c :: p.1, p.2))

/-- replAux scans the text left to right and replaces each non-overlapping
occurrence of `old` (nonempty) with `new`, fuelled for termination; fuel at
least the length of the text is always sufficient. -/
def replAux (old new : Txt) : Nat → Txt → Txt
  | _, [] => []
  | 0, s => s
  | fuel + 1, c :: rest =>
    if isPre old (c :: rest) then new ++ replAux old new fuel ((c :: rest).drop old.length)
    else c :: replAux old new fuel rest

/-- pyReplaceAll models Python `str.replace(old, new)` (all occurrences,
left to right, non-overlapping), including the empty-`old` interspersion. -/
def pyReplaceAll (s old new : Txt) : Txt :=
  match old with
  | [] => new ++ s.foldr (fun c acc => c :: (new ++ acc)) []
  | _ :: _ => replAux old new s.length s

/-- removeAll removes every occurrence of `t`, as `str.replace(t, "")`. -/
def removeAll (t s : Txt) : Txt := pyReplaceAll s t []

/-- pyReplace1 models Python `str.replace(old, new, 1)`: only the first
occurrence is substituted. -/
def pyReplace1 (s old new : Txt) : Txt :=
  match splitFirst old s with
  | some (before, after) => before ++ new ++ after
  | none => s

/-- closeTag is the literal `[/DOC]` closing delimiter. -/
def closeTag : Txt := S "[/DOC]"

/-- findBlocks models `re.findall(r"\[DOC:XXX\](.*?)\[/DOC\]", s, DOTALL |
IGNORECASE)`: repeatedly locate the next case-insensitive opening tag, then
the nearest case-insensitive `[/DOC]` after it (the non-greedy inner match),
and continue after the closing tag. -/
def findBlocks (openTag : Txt) : Nat → Txt → List Txt
  | 0, _ => []
  | fuel + 1, s =>
    match splitCI openTag s with
    | none => []
    | some (_, afterOpen) =>
      match splitCI closeTag afterOpen with
      | none => []
      | some (block, afterClose) => block :: findBlocks openTag fuel afterClose

/-- findAppendBlocks collects the inner texts of all `[DOC:APPEND] ... [/DOC]`
segments, in order of appearance. -/
def findAppendBlocks (s : Txt) : List Txt := findBlocks (S "[DOC:APPEND]") (s.length + 1) s

/-- findReplaceBlocks collects the inner texts of all `[DOC:REPLACE] ... [/DOC]`
segments, in order of appearance. -/
def findReplaceBlocks (s : Txt) : List Txt := findBlocks (S "[DOC:REPLACE]") (s.length + 1) s

/-- findTagged models `re.search(word + r"\s*<<<(.*?)>>>", block, DOTALL |
IGNORECASE)`: at the first position where `word` matches case-insensitively
and is followed (after greedy whitespace) by `<<<`, capture the non-greedy
text up to the next `>>>`. -/
def findTagged (word : Txt) : Txt → Option Txt
  | [] => none
  | c :: rest =>
    if ciPre word (c :: rest) then
      let afterSp := ((c :: rest).drop word.length).dropWhile isSp
      if isPre (S "<<<") afterSp then
        match splitFirst (S ">>>") (afterSp.drop 3) with
        | some (content, _) => some content
        | none => none
      else findTagged word rest
    else findTagged word rest

/-- appendTemplate rebuilds the canonical-case append block text that the
source interpolates into `clean_reply.replace(f"[DOC:APPEND]{block}[/DOC]", "")`. -/
def appendTemplate (block : Txt) : Txt := S "[DOC:APPEND]" ++ block ++ closeTag

/-- replaceTemplate rebuilds the canonical-case replace block text. -/
def replaceTemplate (block : Txt) : Txt := S "[DOC:REPLACE]" ++ block ++ closeTag

/-- docAppendStep applies one append block to the document: the trimmed inner
text, when nonempty, is appended after ensuring the document ends with a
newline, preceded by a blank line and followed by a newline. -/
def docAppendStep (doc block : Txt) : Txt :=
  let addition := pyStrip block
  if addition.isEmpty then doc
  else
    (if isPre (S "\n") doc.reverse then doc else doc ++ S "\n") ++ S "\n" ++ addition ++ S "\n"

/-- cleanAppendStep removes every occurrence of the canonical append template
from the visible reply and strips it, mirroring the source loop body. -/
def cleanAppendStep (clean block : Txt) : Txt :=
  pyStrip (removeAll (appendTemplate block) clean)

/-- docReplaceStep applies one replace block: when both the `pattern:` and
`with:` sub-matches are present, the first occurrence of the pattern in the
current document is substituted; a malformed block changes nothing. -/
def docReplaceStep (doc block : Txt) : Txt :=
  match findTagged (S "pattern:") block, findTagged (S "with:") block with
  | some old, some new => pyReplace1 doc old new
  | _, _ => doc

/-- cleanReplaceStep removes every occurrence of the canonical replace
template from the visible reply and strips it. -/
def cleanReplaceStep (clean block : Txt) : Txt :=
  pyStrip (removeAll (replaceTemplate block) clean)

/-- apply_doc_edits embeds `apply_doc_edits(assistant_reply, current_doc)`
from `panel_chat.py`: all append blocks are processed first, then all replace
blocks, each loop updating the document and the visible reply; the pair
`(clean_reply, new_doc)` is returned. -/
def apply_doc_edits (assistant_reply current_doc : Txt) : Txt × Txt :=
  let aBlocks := findAppendBlocks assistant_reply
  let rBlocks := findReplaceBlocks assistant_reply
  let p1 := aBlocks.foldl (fun p b => (docAppendStep p.1 b, cleanAppendStep p.2 b))
    (current_doc, assistant_reply)
  let p2 := rBlocks.foldl (fun p b => (docReplaceStep p.1 b, cleanReplaceStep p.2 b)) p1
  (pyStrip p2.2, p2.1)

/-! ### JSON values and the embedded `json.loads` -/

/-- Json is the value universe produced by `json.loads`: floats keep their
lexeme, objects keep insertion order with later duplicate keys overwriting
earlier ones (Python `dict` semantics). -/
inductive Json where
  | null
  | bool (b : Bool)
  | int (n : Int)
  | float (lexeme : Txt)
  | str (s : Txt)
  | arr (elems : List Json)
  | obj (entries : List (Txt × Json))

/-- isJsonWs recognises the four whitespace characters of the JSON grammar. -/
def isJsonWs (c : Char) : Bool := c = ' ' || c = '\t' || c = '\n' || c = '\r'

/-- skipWs drops leading JSON whitespace. -/
def skipWs (s : Txt) : Txt := s.dropWhile isJsonWs

/-- insertKV inserts a key into an object as a Python `dict` does: an existing
key keeps its position but takes the new value; a new key is appended. -/
def insertKV : List (Txt × Json) → Txt → Json → List (Txt × Json)
  | [], k, v => [(k, v)]
  | (k0, v0) :: rest, k, v =>
    if k0 = k then (k0, v) :: rest else (k0, v0) :: insertKV rest k v

/-- dictGet looks a key up in an object, modelling `dict.get`. -/
def dictGet : List (Txt × Json) → Txt → Option Json
  | [], _ => none
  | (k0, v0) :: rest, k => if k0 = k then some v0 else dictGet rest k

/-- hexVal converts one hexadecimal digit. -/
def hexVal (c : Char) : Option Nat :=
  if '0' ≤ c && c ≤ '9' then some (c.toNat - 48)
  else if 'a' ≤ c && c ≤ 'f' then some (c.toNat - 87)
  else if 'A' ≤ c && c ≤ 'F' then some (c.toNat - 70)
  else none

/-- parseStr consumes a JSON string body (the opening quote already read),
handling the escape sequences accepted by `json.loads` and rejecting raw
control characters, and returns the decoded content and the remaining text. -/
def parseStr : Nat → Txt → Option (Txt × Txt)
  | 0, _ => none
  | fuel + 1, s =>
    match s with
    | [] => none
    | c :: rest =>
      if c = '"' then some ([], rest)
      else if c = '\\' then
        match rest with
        | [] => none
        | e :: rest2 =>
          if e = '"' || e = '\\' || e = '/' then
            (parseStr fuel rest2).map (fun p => (e :: p.1, p.2))
          else if e = 'b' then (parseStr fuel rest2).map (fun p => ('\x08' :: p.1, p.2))
          else if e = 'f' then (parseStr fuel rest2).map (fun p => ('\x0c' :: p.1, p.2))
          else if e = 'n' then (parseStr fuel rest2).map (fun p => ('\n' :: p.1, p.2))
          else if e = 'r' then (parseStr fuel rest2).map (fun p => ('\r' :: p.1, p.2))
          else if e = 't' then (parseStr fuel rest2).map (fun p => ('\t' :: p.1, p.2))
          else if e = 'u' then
            match rest2 with
            | h1 :: h2 :: h3 :: h4 :: rest3 =>
              match hexVal h1, hexVal h2, hexVal h3, hexVal h4 with
              | some a, some b, some cc, some d =>
                (parseStr fuel rest3).map
                  (fun p => (Char.ofNat (((a * 16 + b) * 16 + cc) * 16 + d) :: p.1, p.2))
              | _, _, _, _ => none
            | _ => none
          else none
      else if c.toNat < 32 then none
      else (parseStr fuel rest).map (fun p => (c :: p.1, p.2))

/-- digitsToNat reads a decimal digit run. -/
def digitsToNat (ds : Txt) : Nat := ds.foldl (fun n c => 10 * n + (c.toNat - 48)) 0

/-- parseNumber consumes a JSON number.  Integers (no fraction, no exponent)
become `Json.int`; otherwise the consumed lexeme is kept as `Json.float`. -/
def parseNumber (s : Txt) : Option (Json × Txt) :=
  let neg : Bool := match s with
    | c :: _ => c = '-'
    | [] => false
  let s1 := if neg then s.drop 1 else s
  let intDigits := s1.takeWhile Char.isDigit
  let s2 := s1.dropWhile Char.isDigit
  if intDigits.isEmpty then none
  else if intDigits.length > 1 && intDigits.head? = some '0' then none
  else
    let fracDigits := match s2 with
      | c :: rest => if c = '.' then rest.takeWhile Char.isDigit else []
      | [] => []
    let hasDot : Bool := match s2 with
      | c :: _ => c = '.'
      | [] => false
    if hasDot && fracDigits.isEmpty then none
    else
      let s3 := if hasDot then (s2.drop 1).drop fracDigits.length else s2
      let hasExp : Bool := match s3 with
        | c :: _ => c = 'e' || c = 'E'
        | [] => false
      if hasExp then
        let s4 := s3.drop 1
        let expSign : Bool := match s4 with
          | c :: _ => c = '+' || c = '-'
          | [] => false
        let s5 := if expSign then s4.drop 1 else s4
        let expDigits := s5.takeWhile Char.isDigit
        if expDigits.isEmpty then none
        else
          let rest := s5.drop expDigits.length
          let consumed := s.length - rest.length
          some (Json.float (s.take consumed), rest)
      else if hasDot then
        let consumed := s.length - s3.length
        some (Json.float (s.take consumed), s3)
      else
        let n : Int := Int.ofNat (digitsToNat intDigits)
        some (Json.int (if neg then -n else n), s2)

mutual

/-- parseVal consumes one JSON value after optional whitespace. -/
def parseVal : Nat → Txt → Option (Json × Txt)
  | 0, _ => none
  | fuel + 1, s =>
    match skipWs s with
    | [] => none
    | c :: rest =>
      if c = Char.ofNat 123 then parseObjBody fuel rest
      else if c = '[' then parseArrBody fuel rest
      else if c = '"' then (parseStr (rest.length + 1) rest).map (fun p => (Json.str p.1, p.2))
      else if isPre (S "true") (c :: rest) then some (Json.bool true, (c :: rest).drop 4)
      else if isPre (S "false") (c :: rest) then some (Json.bool false, (c :: rest).drop 5)
      else if isPre (S "null") (c :: rest) then some (Json.null, (c :: rest).drop 4)
      else parseNumber (c :: rest)

/-- parseObjBody consumes the members of an object, the opening brace
already read. -/
def parseObjBody : Nat → Txt → Option (Json × Txt)
  | 0, _ => none
  | fuel + 1, s =>
    match skipWs s with
    | [] => none
    | c :: rest =>
      if c = Char.ofNat 125 then some (Json.obj [], rest)
      else parseMembers fuel (c :: rest) []

/-- parseMembers consumes `"key": value` pairs separated by commas, ending
at the closing brace. -/
def parseMembers : Nat → Txt → List (Txt × Json) → Option (Json × Txt)
  | 0, _, _ => none
  | fuel + 1, s, acc =>
    match skipWs s with
    | [] => none
    | c :: rest =>
      if c = '"' then
        match parseStr (rest.length + 1) rest with
        | none => none
        | some (key, r1) =>
          match skipWs r1 with
          | ':' :: r2 =>
            match parseVal fuel r2 with
            | none => none
            | some (v, r3) =>
              let acc2 := insertKV acc key v
              match skipWs r3 with
              | ',' :: r4 => parseMembers fuel r4 acc2
              | d :: r4 => if d = Char.ofNat 125 then some (Json.obj acc2, r4) else none
              | [] => none
          | _ => none
      else none

/-- parseArrBody consumes the items of an array, the opening bracket
already read. -/
def parseArrBody : Nat → Txt → Option (Json × Txt)
  | 0, _ => none
  | fuel + 1, s =>
    match skipWs s with
    | [] => none
    | c :: rest =>
      if c = ']' then some (Json.arr [], rest)
      else parseItems fuel (c :: rest) []

/-- parseItems consumes comma-separated array items up to the closing
bracket. -/
def parseItems : Nat → Txt → List Json → Option (Json × Txt)
  | 0, _, _ => none
  | fuel + 1, s, acc =>
    match parseVal fuel s with
    | none => none
    | some (v, r1) =>
      match skipWs r1 with
      | ',' :: r2 => parseItems fuel r2 (acc ++ [v])
      | ']' :: r2 => some (Json.arr (acc ++ [v]), r2)
      | _ => none

end

/-- jsonLoads embeds `json.loads`: the whole text (up to trailing JSON
whitespace) must be one JSON value; `none` models a raised
`json.JSONDecodeError`. -/
def jsonLoads (s : Txt) : Option Json :=
  match parseVal (3 * s.length + 8) s with
  | some (v, rest) => if (skipWs rest).isEmpty then some v else none
  | none => none

/-! ### Python rendering of values (`str()` on a parsed JSON value) -/

/-- joinComma joins rendered parts with `", "`. -/
def joinComma : List Txt → Txt
  | [] => []
  | [p] => p
  | p :: q :: rest => p ++ S ", " ++ joinComma (q :: rest)

/-- quoteCh is the apostrophe used by Python `repr` of strings. -/
def quoteCh : Char := Char.ofNat 39

mutual

/-- pyRepr approximates Python `repr` on parsed JSON values (string escaping
inside `repr` is not reproduced; the claims never exercise it). -/
def pyRepr : Json → Txt
  | Json.null => S "None"
  | Json.bool true => S "True"
  | Json.bool false => S "False"
  | Json.int n => (toString n).data
  | Json.float lexeme => lexeme
  | Json.str s => quoteCh :: s ++ [quoteCh]
  | Json.arr xs => '[' :: joinComma (pyReprList xs) ++ [']']
  | Json.obj kvs => Char.ofNat 123 :: joinComma (pyReprPairs kvs) ++ [Char.ofNat 125]

/-- pyReprList renders array elements. -/
def pyReprList : List Json → List Txt
  | [] => []
  | j :: js => pyRepr j :: pyReprList js

/-- pyReprPairs renders object entries. -/
def pyReprPairs : List (Txt × Json) → List Txt
  | [] => []
  | (k, v) :: rest => (quoteCh :: k ++ [quoteCh] ++ S ": " ++ pyRepr v) :: pyReprPairs rest

end

/-- pyStr models Python `str()` on a parsed JSON value: a string renders as
itself, every other value through its `repr`-like rendering. -/
def pyStr : Json → Txt
  | Json.str s => s
  | j => pyRepr j

/-! ### The field store of `panel_chat_final.py` -/

/-- PyErr names the Python exception classes the embedded code can raise. -/
inductive PyErr where
  | attributeError
  | typeError
  | valueError
  | jsonDecodeError
deriving DecidableEq

/-- FieldW is the mutable state of one form row: the answer and rationale
widget values. -/
structure FieldW where
  answer : Txt
  rationale : Txt
deriving DecidableEq

/-- Store is the keyed field store: question id to current widget values,
in form order. -/
abbrev Store := List (Txt × FieldW)

/-- containsKey decides Python `qid in widget_dict` for a string key. -/
def containsKey : Store → Txt → Bool
  | [], _ => false
  | (k0, _) :: rest, k => k0 = k || containsKey rest k

/-- setAnswer overwrites the answer of the field with the given id. -/
def setAnswer : Store → Txt → Txt → Store
  | [], _, _ => []
  | (k0, f) :: rest, k, v =>
    if k0 = k then (k0, { f with answer := v }) :: rest
    else (k0, f) :: setAnswer rest k v

/-- setRationale overwrites the rationale of the field with the given id. -/
def setRationale : Store → Txt → Txt → Store
  | [], _, _ => []
  | (k0, f) :: rest, k, v =>
    if k0 = k then (k0, { f with rationale := v }) :: rest
    else (k0, f) :: setRationale rest k v

/-- getField looks a field up by id. -/
def getField : Store → Txt → Option FieldW
  | [], _ => none
  | (k0, f) :: rest, k => if k0 = k then some f else getField rest k

/-- FormQuestion copies the static form definition record. -/
structure FormQuestion where
  id : String
  question : String
  instructions : String
  widget_type : String := "text"
  options : List String := []

/-- FORM_QUESTIONS copies the five field definitions of
`panel_chat_final.py`. -/
def FORM_QUESTIONS : List FormQuestion :=
  [ { id := "1.1", question := "Project Title",
      instructions := "Provide a concise, descriptive title for this data processing project." },
    { id := "1.2.1", question := "Project Summary",
      instructions := "Describe the overall scope and nature of data processing activities.",
      widget_type := "textarea" },
    { id := "1.2.2", question := "Purpose of Processing",
      instructions := "Explain why this data processing is necessary. What business need does it fulfill?",
      widget_type := "textarea" },
    { id := "2.1", question := "Data Types",
      instructions := "List all categories of personal data that will be processed.",
      widget_type := "textarea" },
    { id := "2.2", question := "Legal Basis",
      instructions := "Identify the lawful basis for processing under GDPR Article 6.",
      widget_type := "select",
      options := ["Consent", "Contract", "Legal Obligation", "Vital Interests", "Public Task", "Legitimate Interests"] } ]

/-- widget_dict_init is the field store right after `create_form`: every
answer and rationale empty.  Widget-library specifics (help buttons, option
validation of the select widget) are presentation concerns not modelled. -/
def widget_dict_init : Store :=
  FORM_QUESTIONS.map (fun q => (S q.id, { answer := [], rationale := [] }))

/-- setWidgetValues performs the body of one `apply_edits` iteration after
the membership check: assign the answer if the key is present, then the
rationale.  Assigning a non-string raises the widget value validation error;
an earlier successful assignment persists (Python mutation order). -/
def setWidgetValues (st : Store) (k : Txt) (kvs : List (Txt × Json)) : Store × Option PyErr :=
  let afterAnswer : Store × Option PyErr :=
    match dictGet kvs (S "answer") with
    | some (Json.str v) => (setAnswer st k v, none)
    | some _ => (st, some PyErr.valueError)
    | none => (st, none)
  match afterAnswer with
  | (st1, none) =>
    match dictGet kvs (S "rationale") with
    | some (Json.str v) => (setRationale st1 k v, none)
    | some _ => (st1, some PyErr.valueError)
    | none => (st1, none)
  | (st1, some e) => (st1, some e)

/-- apply_edits embeds `apply_edits(edits)` from `panel_chat_final.py`.  Each
edit is looked up by its `id`; unknown or absent ids are skipped.  A non-dict
edit raises `AttributeError` at `.get`, an unhashable id raises `TypeError`
at the membership test, and a non-string value raises at the widget
assignment; a raise stops processing with the store mutated so far. -/
def apply_edits (st : Store) : List Json → Store × Option PyErr
  | [] => (st, none)
  | e :: rest =>
    match e with
    | Json.obj kvs =>
      match dictGet kvs (S "id") with
      | some (Json.arr _) => (st, some PyErr.typeError)
      | some (Json.obj _) => (st, some PyErr.typeError)
      | some (Json.str k) =>
        if containsKey st k then
          match setWidgetValues st k kvs with
          | (st1, none) => apply_edits st1 rest
          | (st1, some err) => (st1, some err)
        else apply_edits st rest
      | _ => apply_edits st rest
    | _ => (st, some PyErr.attributeError)

/-- extractBrace models `re.search(r"\{.*\}", text, re.DOTALL)`: the match,
when any, spans from the first opening brace to the last closing brace after
it. -/
def extractBrace (text : Txt) : Option Txt :=
  match text.findIdx? (fun c => c = Char.ofNat 123) with
  | none => none
  | some i =>
    match text.reverse.findIdx? (fun c => c = Char.ofNat 125) with
    | none => none
    | some jr =>
      let j := text.length - 1 - jr
      if i < j then some ((text.drop i).take (j - i + 1)) else none

/-- parse_json embeds `parse_json` from `panel_chat_final.py`: extract the
brace-delimited span, try `json.loads` on it, and fall back to the empty
dict on any failure (the decode error is caught there). -/
def parse_json (text : Txt) : List (Txt × Json) :=
  match extractBrace text with
  | some sub =>
    match jsonLoads sub with
    | some (Json.obj kvs) => kvs
    | _ => []
  | none => []

/-- composeReply builds the user-visible reply of `handle_json_payload` from
the stripped explanation and follow-up strings. -/
def composeReply (explanation follow_up : Txt) : Txt :=
  let reply :=
    (if explanation.isEmpty then [] else S "**Update:** " ++ explanation ++ S "\n\n") ++
    (if follow_up.isEmpty then [] else S "**Next:** " ++ follow_up)
  if reply.isEmpty then S "Done." else reply

/-- handle_json_payload embeds `handle_json_payload(payload)`: read the three
recognised keys, apply the edits when they form a list, and compose the
reply; a raise from `apply_edits` propagates with the store mutated so far. -/
def handle_json_payload (st : Store) (payload : List (Txt × Json)) :
    Store × Except PyErr Txt :=
  let explanation := pyStrip (match dictGet payload (S "explanation of edits") with
    | some v => pyStr v
    | none => [])
  let editsV := (dictGet payload (S "edits")).getD (Json.arr [])
  let follow_up := pyStrip (match dictGet payload (S "follow-up question") with
    | some v => pyStr v
    | none => [])
  match editsV with
  | Json.arr es =>
    match apply_edits st es with
    | (st1, none) => (st1, Except.ok (composeReply explanation follow_up))
    | (st1, some e) => (st1, Except.error e)
  | _ => (st, Except.ok (composeReply explanation follow_up))

/-- MSG_UNPARSEABLE is the fixed error string of the message handler. -/
def MSG_UNPARSEABLE : Txt := S "Could not parse valid JSON from model output."

/-- on_message_reply embeds the turn handler of `panel_chat_final.py` from
the point the raw model reply is in hand: parse it, answer the fixed error
string on an empty parse result, otherwise handle the payload. -/
def on_message_reply (st : Store) (raw : Txt) : Store × Except PyErr Txt :=
  let payload := parse_json raw
  if payload.isEmpty then (st, Except.ok MSG_UNPARSEABLE)
  else handle_json_payload st payload

/-- parse_json_html embeds `parse_json` from `panel_chat_html.py`: the first
`json.loads` attempt is guarded by `try`, but the fallback `json.loads` on
the brace-extracted span is not, so its failure raises. -/
def parse_json_html (text : Txt) : Except PyErr (List (Txt × Json)) :=
  match jsonLoads text with
  | some (Json.obj kvs) => Except.ok kvs
  | some _ => Except.ok []
  | none =>
    match extractBrace text with
    | some sub =>
      match jsonLoads sub with
      | some (Json.obj kvs) => Except.ok kvs
      | some _ => Except.ok []
      | none => Except.error PyErr.jsonDecodeError
    | none => Except.ok []

/-! ### Helper predicates for the claim statements -/

/-- parseFails holds when no brace-delimited substring of the raw reply
parses as JSON: either there is no `{...}` span at all, or `json.loads`
rejects the extracted span. -/
def parseFails (raw : Txt) : Bool :=
  match extractBrace raw with
  | none => true
  | some sub => (jsonLoads sub).isNone

/-- hasDocTag holds when the raw reply contains a (case-insensitive)
`[DOC:` opener. -/
def hasDocTag (raw : Txt) : Bool := (splitCI (S "[DOC:") raw).isSome

/-- isEmptyObjLoad recognises a `json.loads` result that is the empty
object. -/
def isEmptyObjLoad : Option Json → Bool
  | some (Json.obj []) => true
  | _ => false

/-- extractsEmptyObj holds when the brace-extracted span of the raw reply
parses to the empty JSON object. -/
def extractsEmptyObj (raw : Txt) : Bool :=
  match extractBrace raw with
  | some sub => isEmptyObjLoad (jsonLoads sub)
  | none => false

theorem isEmptyObjLoad_spec (o : Option Json) (h : isEmptyObjLoad o = true) :
    o = some (Json.obj []) := by
  cases o with
  | none => exact Bool.noConfusion h
  | some j =>
    cases j with
    | obj kvs =>
      cases kvs with
      | nil => rfl
      | cons a l => exact Bool.noConfusion h
    | null => exact Bool.noConfusion h
    | bool b => exact Bool.noConfusion h
    | int n => exact Bool.noConfusion h
    | float l => exact Bool.noConfusion h
    | str s => exact Bool.noConfusion h
    | arr xs => exact Bool.noConfusion h

/-- idIsKnown holds when a looked-up `id` value is a string naming a
defined field of the store. -/
def idIsKnown (st : Store) : Option Json → Bool
  | some (Json.str k) => containsKey st k
  | _ => false

/-- hasKnownId holds when an edit entry is an object whose `id` value is a
string naming a defined field of the store. -/
def hasKnownId (st : Store) : Json → Bool
  | Json.obj kvs => idIsKnown st (dictGet kvs (S "id"))
  | _ => false

/-- getAnswer reads the current answer of a field. -/
def getAnswer (st : Store) (k : Txt) : Option Txt := (getField st k).map FieldW.answer

/-- mkAnswerEdit builds the edit operation `{id: ..., answer: ...}`. -/
def mkAnswerEdit (id : Txt) (X : Json) : Json :=
  Json.obj [(S "id", Json.str id), (S "answer", X)]

/-! ### Store lemmas -/

theorem containsKey_setAnswer (st : Store) (k v k2 : Txt) :
    containsKey (setAnswer st k v) k2 = containsKey st k2 := by
  induction st with
  | nil => rfl
  | cons p rest ih =>
    obtain ⟨k0, f⟩ := p
    by_cases h0 : k0 = k
    · simp [setAnswer, containsKey, h0]
    · simp [setAnswer, if_neg h0, containsKey, ih]

theorem setAnswer_setAnswer (st : Store) (k v : Txt) :
    setAnswer (setAnswer st k v) k v = setAnswer st k v := by
  induction st with
  | nil => rfl
  | cons p rest ih =>
    obtain ⟨k0, f⟩ := p
    by_cases h0 : k0 = k
    · simp [setAnswer, h0]
    · simp [setAnswer, if_neg h0, ih]

theorem getAnswer_setAnswer (st : Store) (k v : Txt) (hc : containsKey st k = true) :
    getAnswer (setAnswer st k v) k = some v := by
  induction st with
  | nil => exact absurd hc (by simp [containsKey])
  | cons p rest ih =>
    obtain ⟨k0, f⟩ := p
    by_cases h0 : k0 = k
    · simp [setAnswer, getAnswer, getField, h0]
    · have hc2 : containsKey rest k = true := by
        simpa [containsKey, h0] using hc
      simpa [setAnswer, getAnswer, getField, if_neg h0] using ih hc2

/-! ### Claim C7 -/

/-- C7: a replace operation substitutes only the first occurrence of its
pattern: for document `"a b a"` and the replace block with pattern `a` and
replacement `c`, the resulting document is `"c b a"`, not `"c b c"`. -/
theorem replace_first_occurrence_only :
    apply_doc_edits (S "[DOC:REPLACE]\npattern: <<<a>>>\nwith: <<<c>>>\n[/DOC]") (S "a b a") =
      (S "", S "c b a") ∧ S "c b a" ≠ S "c b c" := by
  exact ⟨by decide, by decide⟩

/-! ### Claim C1 -/

/-- C1: a raw reply from which no JSON object can be extracted (plain prose,
no `[DOC:` tags) makes the turn handler return the fixed literal error string
and leaves the field store completely unchanged. -/
theorem unparseable_reply_fixed_error (st : Store) (raw : Txt)
    (hjson : parseFails raw = true) (_hdoc : hasDocTag raw = false) :
    on_message_reply st raw = (st, Except.ok MSG_UNPARSEABLE) := by
  have hp : parse_json raw = [] := by
    unfold parseFails at hjson
    cases hE : extractBrace raw with
    | none => simp only [parse_json, hE]
    | some sub =>
      rw [hE] at hjson
      simp only [Option.isNone_iff_eq_none] at hjson
      simp only [parse_json, hE, hjson]
  simp only [on_message_reply, hp]
  rfl

/-- Witness for C1 at a concrete plain-prose reply. -/
theorem unparseable_reply_fixed_error_witness :
    parseFails (S "I cannot answer that.") = true ∧
    hasDocTag (S "I cannot answer that.") = false ∧
    on_message_reply widget_dict_init (S "I cannot answer that.") =
      (widget_dict_init, Except.ok MSG_UNPARSEABLE) :=
  ⟨by decide, by decide,
    unparseable_reply_fixed_error widget_dict_init (S "I cannot answer that.") (by decide) (by decide)⟩

/-! ### Claim C9 -/

/-- C9: a raw reply whose extracted JSON is the empty object is treated
exactly like an unparseable reply: the handler returns the fixed error
string, which is not the `"Done."` reply, and the store is unchanged. -/
theorem empty_object_treated_as_unparseable (st : Store) (raw : Txt)
    (h : extractsEmptyObj raw = true) :
    on_message_reply st raw = (st, Except.ok MSG_UNPARSEABLE) ∧ MSG_UNPARSEABLE ≠ S "Done." := by
  refine ⟨?_, by decide⟩
  unfold extractsEmptyObj at h
  cases hE : extractBrace raw with
  | none => rw [hE] at h; exact Bool.noConfusion h
  | some sub =>
    rw [hE] at h
    have hL : jsonLoads sub = some (Json.obj []) := isEmptyObjLoad_spec _ h
    simp only [on_message_reply, parse_json, hE, hL]
    rfl

/-- Witness for C9 at the literal `{}` reply. -/
theorem empty_object_treated_as_unparseable_witness :
    extractsEmptyObj (S "\x7b\x7d") = true ∧
    (on_message_reply widget_dict_init (S "\x7b\x7d") =
      (widget_dict_init, Except.ok MSG_UNPARSEABLE) ∧ MSG_UNPARSEABLE ≠ S "Done.") :=
  ⟨by decide, empty_object_treated_as_unparseable widget_dict_init (S "\x7b\x7d") (by decide)⟩

/-! ### Claim C3, counterexample -/

/-- C3 fails on the code: stripping the block from
`"Hello [DOC:APPEND]foo[/DOC] world"` leaves the two surrounding spaces, so
the clean reply is `"Hello  world"` (double space), not `"Hello world"`. -/
theorem tag_stripping_counterexample :
    (apply_doc_edits (S "Hello [DOC:APPEND]foo[/DOC] world") (S "")).1 = S "Hello  world" ∧
    S "Hello  world" ≠ S "Hello world" := by
  exact ⟨by decide, by decide⟩

/-! ### Claim C4, counterexample -/

/-- C4 fails on the code: with an empty document and a reply whose
`[DOC:REPLACE]` block (pattern `foo`, replacement `bar`) appears textually
before a `[DOC:APPEND]foo[/DOC]` block, the appended text itself is
replaced — the result contains `bar`, not the untouched appended `foo`. -/
theorem replace_before_append_counterexample :
    (apply_doc_edits
      (S "[DOC:REPLACE]pattern: <<<foo>>> with: <<<bar>>>[/DOC][DOC:APPEND]foo[/DOC]")
      (S "")).2 = S "\n\nbar\n" ∧
    S "\n\nbar\n" ≠ S "\n\nfoo\n" := by
  exact ⟨by decide, by decide⟩

/-! ### Claim C5, counterexample -/

/-- C5 fails on the code: a structured reply whose `edits` list contains the
non-object entry `0` raises `AttributeError` at `edit.get` through the whole
handler, and `parse_json` of `panel_chat_html.py` raises `JSONDecodeError`
when the brace-extracted span is not valid JSON. -/
theorem exception_escapes_counterexample :
    on_message_reply widget_dict_init (S "\x7b\"edits\": [0]\x7d") =
      (widget_dict_init, Except.error PyErr.attributeError) ∧
    parse_json_html (S "\x7boops\x7d") = Except.error PyErr.jsonDecodeError := by
  exact ⟨rfl, rfl⟩

/-! ### Claim C2 -/

/-- C2: when no edit operation carries the id of a defined field, applying
the edits leaves the field store exactly as it was (every answer and
rationale untouched, no key created). -/
theorem unknown_ids_leave_store_unchanged (st : Store) (edits : List Json)
    (h : edits.all (fun e => !hasKnownId st e) = true) :
    (apply_edits st edits).1 = st := by
  induction edits with
  | nil => rfl
  | cons e rest ih =>
    rw [List.all_cons, Bool.and_eq_true] at h
    obtain ⟨he, hrest⟩ := h
    cases e with
    | obj kvs =>
      have he2 : (!idIsKnown st (dictGet kvs (S "id"))) = true := he
      cases hdg : dictGet kvs (S "id") with
      | none =>
        simp only [apply_edits, hdg]
        exact ih hrest
      | some j =>
        rw [hdg] at he2
        cases j with
        | str k =>
          have he3 : (!containsKey st k) = true := he2
          have hck : containsKey st k = false := by
            cases hck : containsKey st k with
            | false => rfl
            | true => rw [hck] at he3; exact Bool.noConfusion he3
          simp only [apply_edits, hdg, hck]
          simpa using ih hrest
        | arr xs => simp only [apply_edits, hdg]
        | obj kvs2 => simp only [apply_edits, hdg]
        | null => simp only [apply_edits, hdg]; exact ih hrest
        | bool b => simp only [apply_edits, hdg]; exact ih hrest
        | int n => simp only [apply_edits, hdg]; exact ih hrest
        | float l => simp only [apply_edits, hdg]; exact ih hrest
    | null => rfl
    | bool b => rfl
    | int n => rfl
    | float l => rfl
    | str s2 => rfl
    | arr xs => rfl

/-- Witness for C2: an edit addressed to the undefined id `9.9` leaves the
initial store unchanged. -/
theorem unknown_ids_leave_store_unchanged_witness :
    ([mkAnswerEdit (S "9.9") (Json.str (S "x"))].all
      (fun e => !hasKnownId widget_dict_init e) = true) ∧
    (apply_edits widget_dict_init [mkAnswerEdit (S "9.9") (Json.str (S "x"))]).1 =
      widget_dict_init :=
  ⟨by decide,
    unknown_ids_leave_store_unchanged widget_dict_init
      [mkAnswerEdit (S "9.9") (Json.str (S "x"))] (by decide)⟩

/-! ### Claim C8 -/

theorem apply_edits_answer_cons (st : Store) (id v : Txt) (rest : List Json) :
    apply_edits st (mkAnswerEdit id (Json.str v) :: rest) =
      if containsKey st id = true then apply_edits (setAnswer st id v) rest
      else apply_edits st rest := rfl

/-- C8: applying the edit operation `{id, answer: X}` twice in a row yields
exactly the same result as applying it once, for every store, id and value. -/
theorem answer_edit_idempotent (st : Store) (id : Txt) (X : Json) :
    apply_edits st [mkAnswerEdit id X, mkAnswerEdit id X] =
      apply_edits st [mkAnswerEdit id X] := by
  have key : ∀ (n : Json), (∀ s, n ≠ Json.str s) → ∀ (st0 : Store) (rest : List Json),
      apply_edits st0 (mkAnswerEdit id n :: rest) =
        if containsKey st0 id = true then (st0, some PyErr.valueError)
        else apply_edits st0 rest := by
    intro n hn st0 rest
    cases n with
    | str s => exact absurd rfl (hn s)
    | null => rfl
    | bool b => rfl
    | int m => rfl
    | float l => rfl
    | arr xs => rfl
    | obj kvs => rfl
  by_cases hc : containsKey st id = true
  · cases X with
    | str v =>
      have hc2 : containsKey (setAnswer st id v) id = true := by
        rw [containsKey_setAnswer]; exact hc
      rw [apply_edits_answer_cons, if_pos hc]
      rw [apply_edits_answer_cons, if_pos hc2]
      rw [apply_edits_answer_cons, if_pos hc]
      show (setAnswer (setAnswer st id v) id v, (none : Option PyErr)) = (setAnswer st id v, none)
      rw [setAnswer_setAnswer]
    | null => rw [key _ (fun _ h => Json.noConfusion h), if_pos hc,
        key _ (fun _ h => Json.noConfusion h), if_pos hc]
    | bool b => rw [key _ (fun _ h => Json.noConfusion h), if_pos hc,
        key _ (fun _ h => Json.noConfusion h), if_pos hc]
    | int m => rw [key _ (fun _ h => Json.noConfusion h), if_pos hc,
        key _ (fun _ h => Json.noConfusion h), if_pos hc]
    | float l => rw [key _ (fun _ h => Json.noConfusion h), if_pos hc,
        key _ (fun _ h => Json.noConfusion h), if_pos hc]
    | arr xs => rw [key _ (fun _ h => Json.noConfusion h), if_pos hc,
        key _ (fun _ h => Json.noConfusion h), if_pos hc]
    | obj kvs => rw [key _ (fun _ h => Json.noConfusion h), if_pos hc,
        key _ (fun _ h => Json.noConfusion h), if_pos hc]
  · cases X with
    | str v => rw [apply_edits_answer_cons, if_neg hc]
    | null => rw [key _ (fun _ h => Json.noConfusion h), if_neg hc]
    | bool b => rw [key _ (fun _ h => Json.noConfusion h), if_neg hc]
    | int m => rw [key _ (fun _ h => Json.noConfusion h), if_neg hc]
    | float l => rw [key _ (fun _ h => Json.noConfusion h), if_neg hc]
    | arr xs => rw [key _ (fun _ h => Json.noConfusion h), if_neg hc]
    | obj kvs => rw [key _ (fun _ h => Json.noConfusion h), if_neg hc]

/-! ### Claim C5, amended -/

/-- okId holds when a looked-up edit id is absent or hashable (not a JSON
array or object, whose membership test would raise `TypeError`). -/
def okId : Option Json → Bool
  | some (Json.arr _) => false
  | some (Json.obj _) => false
  | _ => true

/-- okVal holds when a looked-up edit value is absent or a string (the only
values a text widget assignment accepts without raising). -/
def okVal : Option Json → Bool
  | none => true
  | some (Json.str _) => true
  | _ => false

/-- okEntry holds when an edit entry is an object whose id is hashable and
whose `answer`/`rationale` values, when present, are strings. -/
def okEntry : Json → Bool
  | Json.obj kvs =>
    okId (dictGet kvs (S "id")) && okVal (dictGet kvs (S "answer")) &&
      okVal (dictGet kvs (S "rationale"))
  | _ => false

/-- okEdits holds when the decoded payload either carries no `edits` list or
every entry of it satisfies `okEntry`. -/
def okEdits (payload : List (Txt × Json)) : Bool :=
  match dictGet payload (S "edits") with
  | some (Json.arr es) => es.all okEntry
  | _ => true

theorem setWidgetValues_ok (st : Store) (k : Txt) (kvs : List (Txt × Json))
    (hans : okVal (dictGet kvs (S "answer")) = true)
    (hrat : okVal (dictGet kvs (S "rationale")) = true) :
    ∃ st2, setWidgetValues st k kvs = (st2, none) := by
  unfold setWidgetValues
  cases ha : dictGet kvs (S "answer") with
  | none =>
    cases hr : dictGet kvs (S "rationale") with
    | none => exact ⟨st, rfl⟩
    | some jr =>
      rw [hr] at hrat
      cases jr with
      | str v => exact ⟨setRationale st k v, rfl⟩
      | null => exact Bool.noConfusion hrat
      | bool b => exact Bool.noConfusion hrat
      | int n => exact Bool.noConfusion hrat
      | float l => exact Bool.noConfusion hrat
      | arr xs => exact Bool.noConfusion hrat
      | obj kvs2 => exact Bool.noConfusion hrat
  | some ja =>
    rw [ha] at hans
    cases ja with
    | str v =>
      cases hr : dictGet kvs (S "rationale") with
      | none => exact ⟨setAnswer st k v, rfl⟩
      | some jr =>
        rw [hr] at hrat
        cases jr with
        | str w => exact ⟨setRationale (setAnswer st k v) k w, rfl⟩
        | null => exact Bool.noConfusion hrat
        | bool b => exact Bool.noConfusion hrat
        | int n => exact Bool.noConfusion hrat
        | float l => exact Bool.noConfusion hrat
        | arr xs => exact Bool.noConfusion hrat
        | obj kvs2 => exact Bool.noConfusion hrat
    | null => exact Bool.noConfusion hans
    | bool b => exact Bool.noConfusion hans
    | int n => exact Bool.noConfusion hans
    | float l => exact Bool.noConfusion hans
    | arr xs => exact Bool.noConfusion hans
    | obj kvs2 => exact Bool.noConfusion hans

theorem apply_edits_ok (es : List Json) :
    ∀ st : Store, es.all okEntry = true → ∃ st1, apply_edits st es = (st1, none) := by
  induction es with
  | nil => intro st _; exact ⟨st, rfl⟩
  | cons e rest ih =>
    intro st h
    rw [List.all_cons, Bool.and_eq_true] at h
    obtain ⟨he, hrest⟩ := h
    cases e with
    | obj kvs =>
      have he2 : (okId (dictGet kvs (S "id")) && okVal (dictGet kvs (S "answer")) &&
          okVal (dictGet kvs (S "rationale"))) = true := he
      rw [Bool.and_eq_true, Bool.and_eq_true] at he2
      obtain ⟨⟨hid, hans⟩, hrat⟩ := he2
      cases hdg : dictGet kvs (S "id") with
      | none =>
        simp only [apply_edits, hdg]
        exact ih st hrest
      | some j =>
        rw [hdg] at hid
        cases j with
        | str k =>
          by_cases hck : containsKey st k = true
          · obtain ⟨st2, hsw⟩ := setWidgetValues_ok st k kvs hans hrat
            simp only [apply_edits, hdg, hck, if_true, hsw]
            exact ih st2 hrest
          · simp only [apply_edits, hdg]
            rw [if_neg hck]
            exact ih st hrest
        | null => simp only [apply_edits, hdg]; exact ih st hrest
        | bool b => simp only [apply_edits, hdg]; exact ih st hrest
        | int n => simp only [apply_edits, hdg]; exact ih st hrest
        | float l => simp only [apply_edits, hdg]; exact ih st hrest
        | arr xs => exact Bool.noConfusion hid
        | obj kvs2 => exact Bool.noConfusion hid
    | null => exact Bool.noConfusion he
    | bool b => exact Bool.noConfusion he
    | int n => exact Bool.noConfusion he
    | float l => exact Bool.noConfusion he
    | str s2 => exact Bool.noConfusion he
    | arr xs => exact Bool.noConfusion he

/-- C5, amended: the claim fails as stated (see the counterexample), but the
decode/apply/compose sequence of `panel_chat_final.py` does complete with a
string whenever the decoded `edits` entries are objects with hashable ids
and string-valued `answer`/`rationale` fields; in every other respect the
pipeline never raises. -/
theorem wellformed_edits_never_raise (st : Store) (raw : Txt)
    (h : okEdits (parse_json raw) = true) :
    ∃ st1 reply, on_message_reply st raw = (st1, Except.ok reply) := by
  unfold on_message_reply
  cases hp : parse_json raw with
  | nil => exact ⟨st, MSG_UNPARSEABLE, rfl⟩
  | cons a payload =>
    rw [hp] at h
    unfold okEdits at h
    show ∃ st1 reply, handle_json_payload st (a :: payload) = (st1, Except.ok reply)
    unfold handle_json_payload
    cases hdg : dictGet (a :: payload) (S "edits") with
    | none => exact ⟨st, _, rfl⟩
    | some j =>
      rw [hdg] at h
      cases j with
      | arr es =>
        have hall : es.all okEntry = true := h
        obtain ⟨st1, hap⟩ := apply_edits_ok es st hall
        simp only [Option.getD, hap]
        exact ⟨st1, _, rfl⟩
      | null => exact ⟨st, _, rfl⟩
      | bool b => exact ⟨st, _, rfl⟩
      | int n => exact ⟨st, _, rfl⟩
      | float l => exact ⟨st, _, rfl⟩
      | str s2 => exact ⟨st, _, rfl⟩
      | obj kvs => exact ⟨st, _, rfl⟩

/-- Witness for the amended C5 at a concrete well-formed structured reply. -/
theorem wellformed_edits_never_raise_witness :
    okEdits (parse_json (S "\x7b\"edits\": [\x7b\"id\": \"2.1\", \"answer\": \"Names\"\x7d]\x7d")) = true ∧
    ∃ st1 reply,
      on_message_reply widget_dict_init
        (S "\x7b\"edits\": [\x7b\"id\": \"2.1\", \"answer\": \"Names\"\x7d]\x7d") =
        (st1, Except.ok reply) :=
  ⟨by decide,
    wellformed_edits_never_raise widget_dict_init
      (S "\x7b\"edits\": [\x7b\"id\": \"2.1\", \"answer\": \"Names\"\x7d]\x7d") (by decide)⟩

/-! ### Claim C6 -/

/-- c6_raw is the structured round-trip input of the spec. -/
def c6_raw : Txt :=
  S "\x7b\"explanation of edits\": \"\", \"edits\": [\x7b\"id\": \"1.1\", \"answer\": \"Acme\"\x7d], \"follow-up question\": \"Next?\"\x7d"

/-- C6: decoding and applying the structured round-trip input against any
store defining field `1.1` sets that answer to `Acme` and composes exactly
`**Next:** Next?`, with no `**Update:**` line since the explanation is
empty. -/
theorem structured_round_trip (st : Store) (h : containsKey st (S "1.1") = true) :
    on_message_reply st c6_raw =
      (setAnswer st (S "1.1") (S "Acme"), Except.ok (S "**Next:** Next?")) ∧
    getAnswer (setAnswer st (S "1.1") (S "Acme")) (S "1.1") = some (S "Acme") := by
  refine ⟨?_, getAnswer_setAnswer st (S "1.1") (S "Acme") h⟩
  have h1 : apply_edits st [Json.obj [(S "id", Json.str (S "1.1")), (S "answer", Json.str (S "Acme"))]] =
      (if containsKey st (S "1.1") = true then (setAnswer st (S "1.1") (S "Acme"), none)
       else (st, none)) := rfl
  rw [if_pos h] at h1
  have h2 : on_message_reply st c6_raw =
      (match apply_edits st [Json.obj [(S "id", Json.str (S "1.1")), (S "answer", Json.str (S "Acme"))]] with
        | (st1, none) => (st1, Except.ok (S "**Next:** Next?"))
        | (st1, some e) => (st1, Except.error e)) := rfl
  rw [h1] at h2
  exact h2

/-- Witness for C6 at the initial form store. -/
theorem structured_round_trip_witness :
    containsKey widget_dict_init (S "1.1") = true ∧
    (on_message_reply widget_dict_init c6_raw =
      (setAnswer widget_dict_init (S "1.1") (S "Acme"), Except.ok (S "**Next:** Next?")) ∧
    getAnswer (setAnswer widget_dict_init (S "1.1") (S "Acme")) (S "1.1") = some (S "Acme")) :=
  ⟨by decide, structured_round_trip widget_dict_init (by decide)⟩

/-! ### Folding lemmas for the document pipeline -/

theorem foldl_pair_split {α β γ : Type} (f : α → γ → α) (g : β → γ → β) :
    ∀ (bs : List γ) (d : α) (c : β),
      bs.foldl (fun p b => (f p.1 b, g p.2 b)) (d, c) = (bs.foldl f d, bs.foldl g c) := by
  intro bs
  induction bs with
  | nil => intro d c; rfl
  | cons b rest ih =>
    intro d c
    simp only [List.foldl_cons]
    exact ih (f d b) (g c b)

theorem docAppendStep_extends (d b : Txt) : ∃ t, docAppendStep d b = d ++ t := by
  simp only [docAppendStep]
  by_cases h : (pyStrip b).isEmpty = true
  · rw [if_pos h]
    exact ⟨[], (List.append_nil d).symm⟩
  · rw [if_neg h]
    by_cases hnl : isPre (S "\n") d.reverse = true
    · rw [if_pos hnl]
      exact ⟨S "\n" ++ pyStrip b ++ S "\n", by simp [List.append_assoc]⟩
    · rw [if_neg hnl]
      exact ⟨S "\n" ++ S "\n" ++ pyStrip b ++ S "\n", by simp [List.append_assoc]⟩

theorem foldl_docAppendStep_extends (bs : List Txt) :
    ∀ d : Txt, ∃ t, bs.foldl docAppendStep d = d ++ t := by
  induction bs with
  | nil => intro d; exact ⟨[], (List.append_nil d).symm⟩
  | cons b rest ih =>
    intro d
    obtain ⟨t0, h0⟩ := docAppendStep_extends d b
    obtain ⟨t1, h1⟩ := ih (docAppendStep d b)
    refine ⟨t0 ++ t1, ?_⟩
    rw [List.foldl_cons, h1, h0, List.append_assoc]

/-! ### Claim C10 -/

/-- C10: a reply containing only append blocks (no replace blocks) can only
extend the document — the original document is a leading segment of the
result — and an append block whose inner text trims to empty leaves the
document entirely unchanged. -/
theorem append_only_extends_document :
    (∀ reply doc : Txt, findReplaceBlocks reply = [] →
      ∃ t, (apply_doc_edits reply doc).2 = doc ++ t) ∧
    (∀ doc b : Txt, pyStrip b = [] → docAppendStep doc b = doc) := by
  constructor
  · intro reply doc hrep
    simp only [apply_doc_edits, hrep, List.foldl_nil]
    rw [foldl_pair_split docAppendStep cleanAppendStep]
    exact foldl_docAppendStep_extends (findAppendBlocks reply) doc
  · intro doc b hb
    simp only [docAppendStep, hb]
    rfl

/-- Witness for C10 at a concrete append-only reply and a whitespace-only
append block. -/
theorem append_only_extends_document_witness :
    (findReplaceBlocks (S "See [DOC:APPEND]X[/DOC]") = [] ∧
      ∃ t, (apply_doc_edits (S "See [DOC:APPEND]X[/DOC]") (S "D")).2 = S "D" ++ t) ∧
    (pyStrip (S " \n ") = [] ∧ docAppendStep (S "D") (S " \n ") = S "D") :=
  ⟨⟨by decide, append_only_extends_document.1 (S "See [DOC:APPEND]X[/DOC]") (S "D") (by decide)⟩,
   ⟨by decide, append_only_extends_document.2 (S "D") (S " \n ") (by decide)⟩⟩

/-! ### Claim C4, amended -/

/-- C4, amended: replace blocks are not interleaved with append blocks in
textual order — the code applies every append first and every replace
afterwards, so a replace appearing before an append still operates on the
document including that append's text (see the counterexample); the document
result always equals the replace fold applied after the whole append fold. -/
theorem replaces_apply_after_all_appends (reply doc : Txt) :
    (apply_doc_edits reply doc).2 =
      (findReplaceBlocks reply).foldl docReplaceStep
        ((findAppendBlocks reply).foldl docAppendStep doc) := by
  simp only [apply_doc_edits]
  rw [foldl_pair_split docAppendStep cleanAppendStep]
  rw [foldl_pair_split docReplaceStep cleanReplaceStep]

/-! ### Text lemmas for the clean-reply characterisation -/

/-- headCh returns the first character, when any. -/
def headCh : Txt → Option Char
  | [] => none
  | c :: _ => some c

/-- lastCh returns the last character, when any. -/
def lastCh : Txt → Option Char
  | [] => none
  | [c] => some c
  | _ :: d :: r => lastCh (d :: r)

/-- goodTemplate holds for a nonempty text whose first and last characters
are not whitespace — true of every `[DOC:...]...[/DOC]` template. -/
def goodTemplate (t : Txt) : Bool :=
  match headCh t, lastCh t with
  | some c, some d => !isSp c && !isSp d
  | _, _ => false

theorem lastCh_append_of_ne_nil (u : Txt) : ∀ v : Txt, v ≠ [] → lastCh (u ++ v) = lastCh v := by
  induction u with
  | nil => intro v _; rfl
  | cons a u2 ih =>
    intro v hv
    have h2 : u2 ++ v ≠ [] := by
      intro h
      exact hv (List.append_eq_nil.mp h).2
    cases hu : u2 ++ v with
    | nil => exact absurd hu h2
    | cons d r =>
      show lastCh (a :: (u2 ++ v)) = lastCh v
      rw [hu]
      show lastCh (d :: r) = lastCh v
      rw [← hu, ih v hv]

theorem lastCh_of_all_ws : ∀ (l : Txt) (d : Char), l.all isSp = true → lastCh l = some d →
    isSp d = true := by
  intro l
  induction l with
  | nil => intro d _ hd; exact Option.noConfusion hd
  | cons c rest ih =>
    intro d hall hd
    rw [List.all_cons, Bool.and_eq_true] at hall
    cases rest with
    | nil =>
      have : some c = some d := hd
      rw [← Option.some.injEq c d |>.mp this]
      exact hall.1
    | cons e r =>
      exact ih d hall.2 hd

theorem isPre_iff (t : Txt) : ∀ s : Txt, isPre t s = true ↔ ∃ r, s = t ++ r := by
  induction t with
  | nil =>
    intro s
    constructor
    · intro _; exact ⟨s, rfl⟩
    · intro _; rfl
  | cons a as ih =>
    intro s
    cases s with
    | nil =>
      simp only [isPre]
      constructor
      · intro h; exact Bool.noConfusion h
      · rintro ⟨r, hr⟩; exact List.noConfusion hr
    | cons b bs =>
      have hstep : isPre (a :: as) (b :: bs) = (decide (a = b) && isPre as bs) := rfl
      rw [hstep, Bool.and_eq_true, decide_eq_true_iff, ih bs]
      constructor
      · rintro ⟨hab, r, hr⟩
        exact ⟨r, by rw [hab, hr]; rfl⟩
      · rintro ⟨r, hr⟩
        rw [List.cons_append] at hr
        injection hr with h1 h2
        exact ⟨h1.symm, r, h2⟩

theorem replAux_fuel_eq (o : Char) (os new : Txt) :
    ∀ (f1 f2 : Nat) (s : Txt), s.length ≤ f1 → s.length ≤ f2 →
      replAux (o :: os) new f1 s = replAux (o :: os) new f2 s := by
  intro f1
  induction f1 with
  | zero =>
    intro f2 s h1 _
    have hs : s = [] := List.length_eq_zero.mp (Nat.le_zero.mp h1)
    subst hs
    cases f2 <;> rfl
  | succ f ih =>
    intro f2 s h1 h2
    cases s with
    | nil => cases f2 <;> rfl
    | cons c rest =>
      cases f2 with
      | zero =>
        rw [List.length_cons] at h2
        exact absurd h2 (Nat.not_succ_le_zero _)
      | succ g =>
        show (if isPre (o :: os) (c :: rest) = true
            then new ++ replAux (o :: os) new f ((c :: rest).drop (o :: os).length)
            else c :: replAux (o :: os) new f rest) =
          (if isPre (o :: os) (c :: rest) = true
            then new ++ replAux (o :: os) new g ((c :: rest).drop (o :: os).length)
            else c :: replAux (o :: os) new g rest)
        rw [List.length_cons] at h1 h2
        by_cases hp : isPre (o :: os) (c :: rest) = true
        · rw [if_pos hp, if_pos hp,
            ih g ((c :: rest).drop (o :: os).length)
              (by rw [List.length_drop, List.length_cons, List.length_cons]; omega)
              (by rw [List.length_drop, List.length_cons, List.length_cons]; omega)]
        · rw [if_neg hp, if_neg hp, ih g rest (by omega) (by omega)]

theorem removeAll_nil (t : Txt) : removeAll t [] = [] := by
  cases t <;> rfl

theorem removeAll_cons (o c : Char) (os rest : Txt) :
    removeAll (o :: os) (c :: rest) =
      if isPre (o :: os) (c :: rest) = true
      then removeAll (o :: os) ((c :: rest).drop (o :: os).length)
      else c :: removeAll (o :: os) rest := by
  show (if isPre (o :: os) (c :: rest) = true
      then [] ++ replAux (o :: os) [] rest.length ((c :: rest).drop (o :: os).length)
      else c :: replAux (o :: os) [] rest.length rest) = _
  by_cases hp : isPre (o :: os) (c :: rest) = true
  · rw [if_pos hp, if_pos hp, List.nil_append]
    show replAux (o :: os) [] rest.length _ = replAux (o :: os) [] ((c :: rest).drop (o :: os).length).length _
    exact replAux_fuel_eq o os [] rest.length _ _
      (by rw [List.length_drop, List.length_cons, List.length_cons]; omega)
      (Nat.le_refl _)
  · rw [if_neg hp, if_neg hp]
    rfl

theorem all_take (p : Char → Bool) : ∀ (q : Txt) (n : Nat), q.all p = true →
    (q.take n).all p = true := by
  intro q
  induction q with
  | nil => intro n _; rw [List.take_nil]; rfl
  | cons c q2 ih =>
    intro n hall
    rw [List.all_cons, Bool.and_eq_true] at hall
    cases n with
    | zero => rfl
    | succ m =>
      rw [List.take_succ_cons, List.all_cons, hall.1, ih m hall.2]
      rfl

theorem goodTemplate_parts (t : Txt) (h : goodTemplate t = true) :
    (∃ o os, t = o :: os ∧ isSp o = false) ∧ (∃ d, lastCh t = some d ∧ isSp d = false) := by
  unfold goodTemplate at h
  cases t with
  | nil => exact Bool.noConfusion h
  | cons c rest =>
    cases hl : lastCh (c :: rest) with
    | none => rw [hl] at h; exact Bool.noConfusion h
    | some d =>
      rw [hl] at h
      have h2 : (!isSp c && !isSp d) = true := h
      rw [Bool.and_eq_true, Bool.not_eq_true', Bool.not_eq_true'] at h2
      exact ⟨⟨c, rest, rfl, h2.1⟩, ⟨d, rfl, h2.2⟩⟩

theorem removeAll_ws_all (o : Char) (os : Txt) (ho : isSp o = false) :
    ∀ q : Txt, q.all isSp = true → removeAll (o :: os) q = q := by
  intro q
  induction q with
  | nil => intro _; exact removeAll_nil _
  | cons w q2 ih =>
    intro hall
    rw [List.all_cons, Bool.and_eq_true] at hall
    have how : o ≠ w := by
      intro h; rw [h, hall.1] at ho; exact Bool.noConfusion ho
    have hne : isPre (o :: os) (w :: q2) = false := by
      have h1 : isPre (o :: os) (w :: q2) = (decide (o = w) && isPre os q2) := rfl
      rw [h1, decide_eq_false how, Bool.false_and]
    rw [removeAll_cons, hne, if_neg Bool.false_ne_true, ih hall.2]

theorem removeAll_ws_prefix (o : Char) (os : Txt) (ho : isSp o = false) :
    ∀ (p x : Txt), p.all isSp = true →
      removeAll (o :: os) (p ++ x) = p ++ removeAll (o :: os) x := by
  intro p
  induction p with
  | nil => intro x _; rfl
  | cons w p2 ih =>
    intro x hall
    rw [List.all_cons, Bool.and_eq_true] at hall
    have how : o ≠ w := by
      intro h; rw [h, hall.1] at ho; exact Bool.noConfusion ho
    have hne : isPre (o :: os) (w :: (p2 ++ x)) = false := by
      have h1 : isPre (o :: os) (w :: (p2 ++ x)) = (decide (o = w) && isPre os (p2 ++ x)) := rfl
      rw [h1, decide_eq_false how, Bool.false_and]
    rw [List.cons_append, removeAll_cons, hne, if_neg Bool.false_ne_true, ih x hall.2,
      List.cons_append]

theorem removeAll_ws_suffix (o : Char) (os q : Txt)
    (hgt : goodTemplate (o :: os) = true) (hq : q.all isSp = true) :
    ∀ (n : Nat) (s : Txt), s.length ≤ n →
      removeAll (o :: os) (s ++ q) = removeAll (o :: os) s ++ q := by
  obtain ⟨⟨o2, os2, hte, ho⟩, ⟨d, hd, hdw⟩⟩ := goodTemplate_parts _ hgt
  have ho : isSp o = false := by
    injection hte with h1 _
    rw [h1]; exact ho
  intro n
  induction n with
  | zero =>
    intro s h
    have hs : s = [] := List.length_eq_zero.mp (Nat.le_zero.mp h)
    subst hs
    rw [List.nil_append, removeAll_nil, List.nil_append, removeAll_ws_all o os ho q hq]
  | succ m ih =>
    intro s h
    cases s with
    | nil => rw [List.nil_append, removeAll_nil, List.nil_append, removeAll_ws_all o os ho q hq]
    | cons c x =>
      rw [List.cons_append, removeAll_cons]
      by_cases hp : isPre (o :: os) (c :: (x ++ q)) = true
      · have hlen : (o :: os).length ≤ (c :: x).length := by
          by_contra hgt2
          push_neg at hgt2
          obtain ⟨r, hr⟩ := (isPre_iff _ _).mp hp
          have hr2 : (c :: x) ++ q = (o :: os) ++ r := by
            rw [List.cons_append]; exact hr
          have htake : (o :: os) = (c :: x).take (o :: os).length ++
              q.take ((o :: os).length - (c :: x).length) := by
            rw [← List.take_append_eq_append_take, hr2, List.take_left]
          have h1 : (c :: x).take (o :: os).length = c :: x :=
            List.take_of_length_le (Nat.le_of_lt hgt2)
          rw [h1] at htake
          have hlenq : (o :: os).length ≤ (c :: x).length + q.length := by
            have hle := congrArg List.length hr2
            rw [List.length_append, List.length_append] at hle
            have : (o :: os).length ≤ (o :: os).length + r.length := Nat.le_add_right _ _
            omega
          have ht2len : (q.take ((o :: os).length - (c :: x).length)).length =
              (o :: os).length - (c :: x).length := by
            rw [List.length_take]
            omega
          have ht2ne : q.take ((o :: os).length - (c :: x).length) ≠ [] := by
            intro hnil
            rw [hnil] at ht2len
            simp only [List.length_nil] at ht2len
            omega
          have hlst : lastCh (o :: os) = lastCh (q.take ((o :: os).length - (c :: x).length)) :=
            (congrArg lastCh htake).trans (lastCh_append_of_ne_nil (c :: x) _ ht2ne)
          have ht2ws : (q.take ((o :: os).length - (c :: x).length)).all isSp = true :=
            all_take isSp q _ hq
          have : isSp d = true := by
            refine lastCh_of_all_ws _ d ht2ws ?_
            rw [← hlst, hd]
          rw [this] at hdw
          exact Bool.noConfusion hdw
        rw [if_pos hp]
        have hdrop : (c :: (x ++ q)).drop (o :: os).length =
            (c :: x).drop (o :: os).length ++ q := by
          have hca : c :: (x ++ q) = (c :: x) ++ q := rfl
          rw [hca, List.drop_append_eq_append_drop, Nat.sub_eq_zero_of_le hlen, List.drop_zero]
        rw [hdrop]
        have hlen2 : ((c :: x).drop (o :: os).length).length ≤ m := by
          rw [List.length_drop, List.length_cons]
          rw [List.length_cons] at h
          have hone : 1 ≤ (o :: os).length := by
            rw [List.length_cons]; omega
          omega
        rw [ih _ hlen2]
        have hp2 : isPre (o :: os) (c :: x) = true := by
          apply (isPre_iff _ _).mpr
          obtain ⟨r, hr⟩ := (isPre_iff _ _).mp hp
          have hr2 : (c :: x) ++ q = (o :: os) ++ r := by
            rw [List.cons_append]; exact hr
          have htake : (c :: x).take (o :: os).length ++
              q.take ((o :: os).length - (c :: x).length) = (o :: os) := by
            rw [← List.take_append_eq_append_take, hr2, List.take_left]
          rw [Nat.sub_eq_zero_of_le hlen, List.take_zero, List.append_nil] at htake
          refine ⟨(c :: x).drop (o :: os).length, ?_⟩
          conv_lhs => rw [← List.take_append_drop (o :: os).length (c :: x)]
          rw [htake]
        rw [removeAll_cons, if_pos hp2]
      · rw [if_neg hp]
        have hp2 : isPre (o :: os) (c :: x) = false := by
          cases hx : isPre (o :: os) (c :: x) with
          | false => rfl
          | true =>
            obtain ⟨r, hr⟩ := (isPre_iff _ _).mp hx
            have hext : isPre (o :: os) (c :: (x ++ q)) = true := by
              apply (isPre_iff _ _).mpr
              refine ⟨r ++ q, ?_⟩
              have hca : c :: (x ++ q) = (c :: x) ++ q := rfl
              rw [hca, hr, List.append_assoc]
            exact absurd hext hp
        rw [removeAll_cons, hp2, if_neg Bool.false_ne_true, List.cons_append]
        rw [ih x (by rw [List.length_cons] at h; omega)]

theorem trimL_ws_nil : ∀ q : Txt, q.all isSp = true → trimL q = [] := by
  intro q
  induction q with
  | nil => intro _; rfl
  | cons w q2 ih =>
    intro hall
    rw [List.all_cons, Bool.and_eq_true] at hall
    show (if isSp w = true then trimL q2 else w :: q2) = []
    rw [if_pos hall.1]
    exact ih hall.2

theorem trimL_append_ws : ∀ (p y : Txt), p.all isSp = true → trimL (p ++ y) = trimL y := by
  intro p
  induction p with
  | nil => intro y _; rfl
  | cons w p2 ih =>
    intro y hall
    rw [List.all_cons, Bool.and_eq_true] at hall
    show (if isSp w = true then trimL (p2 ++ y) else w :: (p2 ++ y)) = trimL y
    rw [if_pos hall.1]
    exact ih y hall.2

theorem trimR_ws_nil : ∀ q : Txt, q.all isSp = true → trimR q = [] := by
  intro q
  induction q with
  | nil => intro _; rfl
  | cons w q2 ih =>
    intro hall
    rw [List.all_cons, Bool.and_eq_true] at hall
    show (match trimR q2 with
      | [] => if isSp w then [] else [w]
      | d :: r => w :: d :: r) = []
    rw [ih hall.2]
    show (if isSp w then [] else [w]) = []
    rw [if_pos hall.1]

theorem trimR_append_ws : ∀ (y q : Txt), q.all isSp = true → trimR (y ++ q) = trimR y := by
  intro y
  induction y with
  | nil => intro q hq; rw [List.nil_append]; exact trimR_ws_nil q hq
  | cons c y2 ih =>
    intro q hq
    show (match trimR (y2 ++ q) with
      | [] => if isSp c then [] else [c]
      | d :: r => c :: d :: r) = trimR (c :: y2)
    rw [ih q hq]
    rfl

theorem trimL_append_cases (x q : Txt) :
    trimL (x ++ q) = (match trimL x with
      | [] => trimL q
      | c :: r => c :: r ++ q) := by
  induction x with
  | nil => rfl
  | cons c x2 ih =>
    by_cases hc : isSp c = true
    · show (if isSp c = true then trimL (x2 ++ q) else c :: (x2 ++ q)) = _
      rw [if_pos hc, ih]
      show _ = (match (if isSp c = true then trimL x2 else c :: x2) with
        | [] => trimL q
        | c :: r => c :: r ++ q)
      rw [if_pos hc]
    · show (if isSp c = true then trimL (x2 ++ q) else c :: (x2 ++ q)) = _
      rw [if_neg hc]
      show _ = (match (if isSp c = true then trimL x2 else c :: x2) with
        | [] => trimL q
        | c :: r => c :: r ++ q)
      rw [if_neg hc]
      rfl

theorem pyStrip_append_ws (p x q : Txt) (hp : p.all isSp = true) (hq : q.all isSp = true) :
    pyStrip (p ++ x ++ q) = pyStrip x := by
  show trimR (trimL (p ++ x ++ q)) = trimR (trimL x)
  rw [List.append_assoc, trimL_append_ws p (x ++ q) hp, trimL_append_cases x q]
  cases htl : trimL x with
  | nil =>
    rw [trimL_ws_nil q hq]
  | cons c r =>
    show trimR ((c :: r) ++ q) = trimR (c :: r)
    exact trimR_append_ws (c :: r) q hq

theorem trimL_decomp (s : Txt) : ∃ p, p.all isSp = true ∧ s = p ++ trimL s := by
  induction s with
  | nil => exact ⟨[], rfl, rfl⟩
  | cons c rest ih =>
    by_cases hc : isSp c = true
    · obtain ⟨p, hp, he⟩ := ih
      have heq : trimL (c :: rest) = trimL rest := by
        show (if isSp c = true then trimL rest else c :: rest) = trimL rest
        rw [if_pos hc]
      refine ⟨c :: p, ?_, ?_⟩
      · rw [List.all_cons, hc, hp]; rfl
      · rw [heq, List.cons_append, ← he]
    · refine ⟨[], rfl, ?_⟩
      show c :: rest = trimL (c :: rest)
      show c :: rest = (if isSp c = true then trimL rest else c :: rest)
      rw [if_neg hc]

theorem trimR_decomp (s : Txt) : ∃ q, q.all isSp = true ∧ s = trimR s ++ q := by
  induction s with
  | nil => exact ⟨[], rfl, rfl⟩
  | cons c rest ih =>
    obtain ⟨q, hq, he⟩ := ih
    cases htr : trimR rest with
    | nil =>
      have hrest : rest = q := by rw [he, htr, List.nil_append]
      by_cases hc : isSp c = true
      · refine ⟨c :: rest, ?_, ?_⟩
        · rw [List.all_cons, hc, hrest, hq]; rfl
        · have : trimR (c :: rest) = [] := by
            show (match trimR rest with
              | [] => if isSp c then [] else [c]
              | d :: r => c :: d :: r) = []
            rw [htr]
            show (if isSp c then [] else [c]) = []
            rw [if_pos hc]
          rw [this, List.nil_append]
      · refine ⟨rest, ?_, ?_⟩
        · rw [hrest]; exact hq
        · have : trimR (c :: rest) = [c] := by
            show (match trimR rest with
              | [] => if isSp c then [] else [c]
              | d :: r => c :: d :: r) = [c]
            rw [htr]
            show (if isSp c then [] else [c]) = [c]
            rw [if_neg hc]
          rw [this]
          rfl
    | cons d r =>
      refine ⟨q, hq, ?_⟩
      have : trimR (c :: rest) = c :: d :: r := by
        show (match trimR rest with
          | [] => if isSp c then [] else [c]
          | d :: r => c :: d :: r) = c :: d :: r
        rw [htr]
      rw [this]
      show c :: rest = c :: ((d :: r) ++ q)
      rw [← htr, ← he]

theorem pyStrip_decomp (s : Txt) :
    ∃ p q, p.all isSp = true ∧ q.all isSp = true ∧ s = p ++ pyStrip s ++ q := by
  obtain ⟨p, hp, hL⟩ := trimL_decomp s
  obtain ⟨q, hq, hR⟩ := trimR_decomp (trimL s)
  refine ⟨p, q, hp, hq, ?_⟩
  show s = (p ++ trimR (trimL s)) ++ q
  rw [List.append_assoc, ← hR, ← hL]

/-- rawStep is one spec-level clean-reply step: remove every occurrence of
the template, with no intermediate trim. -/
def rawStep (clean t : Txt) : Txt := removeAll t clean

/-- srcStep is one source-level clean-reply step: remove every occurrence of
the template and strip, as the source loop bodies do. -/
def srcStep (clean t : Txt) : Txt := pyStrip (removeAll t clean)

theorem foldl_raw_ws_pad : ∀ ts : List Txt, ts.all goodTemplate = true →
    ∀ p x q : Txt, p.all isSp = true → q.all isSp = true →
      pyStrip (ts.foldl rawStep (p ++ x ++ q)) = pyStrip (ts.foldl rawStep x) := by
  intro ts
  induction ts with
  | nil => intro _ p x q hp hq; exact pyStrip_append_ws p x q hp hq
  | cons t ts2 ih =>
    intro hall p x q hp hq
    rw [List.all_cons, Bool.and_eq_true] at hall
    obtain ⟨⟨o, os, hte, ho⟩, _⟩ := goodTemplate_parts t hall.1
    subst hte
    rw [List.foldl_cons, List.foldl_cons]
    show pyStrip (ts2.foldl rawStep (removeAll (o :: os) (p ++ x ++ q))) =
      pyStrip (ts2.foldl rawStep (removeAll (o :: os) x))
    rw [List.append_assoc, removeAll_ws_prefix o os ho p (x ++ q) hp,
      removeAll_ws_suffix o os q hall.1 hq x.length x (Nat.le_refl _),
      ← List.append_assoc]
    exact ih hall.2 p (removeAll (o :: os) x) q hp hq

theorem foldl_raw_strip (ts : List Txt) (hts : ts.all goodTemplate = true) (x : Txt) :
    pyStrip (ts.foldl rawStep (pyStrip x)) = pyStrip (ts.foldl rawStep x) := by
  obtain ⟨p, q, hp, hq, hdec⟩ := pyStrip_decomp x
  conv_rhs => rw [hdec]
  exact (foldl_raw_ws_pad ts hts p (pyStrip x) q hp hq).symm

theorem strip_fold : ∀ ts : List Txt, ts.all goodTemplate = true →
    ∀ s : Txt, pyStrip (ts.foldl srcStep s) = pyStrip (ts.foldl rawStep s) := by
  intro ts
  induction ts with
  | nil => intro _ s; rfl
  | cons t ts2 ih =>
    intro hall s
    rw [List.all_cons, Bool.and_eq_true] at hall
    rw [List.foldl_cons, List.foldl_cons]
    show pyStrip (ts2.foldl srcStep (pyStrip (removeAll t s))) =
      pyStrip (ts2.foldl rawStep (removeAll t s))
    rw [ih hall.2 (pyStrip (removeAll t s))]
    exact foldl_raw_strip ts2 hall.2 (removeAll t s)

theorem goodTemplate_appendTemplate (b : Txt) : goodTemplate (appendTemplate b) = true := by
  have h2 : lastCh (appendTemplate b) = some (']' : Char) := by
    show lastCh ((S "[DOC:APPEND]" ++ b) ++ closeTag) = some (']' : Char)
    rw [lastCh_append_of_ne_nil _ closeTag (by decide)]
    rfl
  show (match headCh (appendTemplate b), lastCh (appendTemplate b) with
    | some c, some d => !isSp c && !isSp d
    | _, _ => false) = true
  rw [h2]
  rfl

theorem goodTemplate_replaceTemplate (b : Txt) : goodTemplate (replaceTemplate b) = true := by
  have h2 : lastCh (replaceTemplate b) = some (']' : Char) := by
    show lastCh ((S "[DOC:REPLACE]" ++ b) ++ closeTag) = some (']' : Char)
    rw [lastCh_append_of_ne_nil _ closeTag (by decide)]
    rfl
  show (match headCh (replaceTemplate b), lastCh (replaceTemplate b) with
    | some c, some d => !isSp c && !isSp d
    | _, _ => false) = true
  rw [h2]
  rfl

theorem all_goodTemplate_map (f : Txt → Txt) (hf : ∀ b, goodTemplate (f b) = true) :
    ∀ bs : List Txt, (bs.map f).all goodTemplate = true := by
  intro bs
  induction bs with
  | nil => rfl
  | cons b rest ih =>
    rw [List.map_cons, List.all_cons, hf b, ih]
    rfl

/-- cleanSpec is the specification-level clean reply: the original text with,
for each matched append block and then each matched replace block, every
occurrence of its canonical-case template removed, and a single final trim. -/
def cleanSpec (reply : Txt) : Txt :=
  pyStrip (((findAppendBlocks reply).map appendTemplate ++
    (findReplaceBlocks reply).map replaceTemplate).foldl rawStep reply)

/-! ### Claim C3, amended -/

/-- C3, amended: the clean reply equals the original text with, for each
block matched by the case-insensitive scan, every occurrence of its
canonical-case reconstruction `[DOC:...]block[/DOC]` removed (so a block
written in non-canonical tag case is matched but not removed, and the
characters around a removed block are not joined), then trimmed; in
particular `"Hello [DOC:APPEND]foo[/DOC] world"` decodes to the clean reply
`"Hello  world"` — with two spaces — and exactly one append fragment
`"foo"`. -/
theorem tag_stripping_amended :
    ((apply_doc_edits (S "Hello [DOC:APPEND]foo[/DOC] world") (S "")).1 = S "Hello  world" ∧
      findAppendBlocks (S "Hello [DOC:APPEND]foo[/DOC] world") = [S "foo"]) ∧
    ∀ reply doc : Txt, (apply_doc_edits reply doc).1 = cleanSpec reply := by
  refine ⟨⟨by decide, by decide⟩, ?_⟩
  intro reply doc
  simp only [apply_doc_edits]
  rw [foldl_pair_split docAppendStep cleanAppendStep,
    foldl_pair_split docReplaceStep cleanReplaceStep]
  have e1 : ∀ (bs : List Txt) (s : Txt),
      bs.foldl cleanAppendStep s = (bs.map appendTemplate).foldl srcStep s := by
    intro bs s
    rw [List.foldl_map]
    rfl
  have e2 : ∀ (bs : List Txt) (s : Txt),
      bs.foldl cleanReplaceStep s = (bs.map replaceTemplate).foldl srcStep s := by
    intro bs s
    rw [List.foldl_map]
    rfl
  rw [e1, e2, ← List.foldl_append]
  unfold cleanSpec
  exact strip_fold _
    (by rw [List.all_append, all_goodTemplate_map appendTemplate goodTemplate_appendTemplate,
      all_goodTemplate_map replaceTemplate goodTemplate_replaceTemplate]; rfl) reply

end ChatForm
